import Mathlib

/-!
Verification of the gwords vocabulary trainer.

The repository contains two variants of the trainer component:

* `src/src/main.tsx` (the `App` bundled with the entry point): a fixed
  25-word list `WORDS`, per-word statuses keyed by the word string
  (`"correct" | "incorrect" | "skipped" | null`), persistence through
  `loadStore`/`saveStore`, navigation through `nextIndex`/`prev`/`next`,
  marking through `handleMark`, plus `resetAll`, `jumpToWord`, `groups`
  and `allDone`.

* `src/src/App.tsx`: a fetch-based variant with `parseWords`/`loadTxt`,
  statuses keyed by word index, marking through `updateStatus`, and
  navigation through `goToNextUnfinished`/`goPrev`/`goNext`.

Both are embedded below.  React `useState` semantics are made explicit:
each handler reads the state captured at render time (so `nextIndex`
inside `handleMark` sees the statuses *before* the mark, exactly as the
closure does) and the queued updates form the next state.
-/

namespace Gwords

/-- Review outcome that can be recorded for a word: the non-null values of
`main.tsx`'s `type Status = "correct" | "incorrect" | "skipped" | null`. -/
inductive Mark
  | correct
  | incorrect
  | skipped
  deriving DecidableEq, Repr

/-- A word's status: `none` models the TypeScript `null` (unset). -/
abbrev Status := Option Mark

/-- The view selector of `main.tsx`: `"trainer" | "summary"`. -/
inductive View
  | trainer
  | summary
  deriving DecidableEq, Repr

/-- The fixed word list `WORDS` of `main.tsx` (the 25 D/E-level words). -/
def WORDS : List String :=
  [ "knight", "write", "catch", "phone", "gnaw",
    "dream", "bread", "train", "coach", "green",
    "pie", "thief", "coin", "toy",
    "start", "storm", "bird", "fern", "turn",
    "running", "played", "fearless", "bigger", "paper", "music" ]

/-- Component state of the `main.tsx` `App`: the `statuses` record (the
record always holds exactly the keys of the word list, in list order, so
it is represented positionally: entry `i` is the status of word `i`),
the `index` state and the `view` state.  The operations are parametric
in the word list `ws` so that they can also be run on the spec's
three-word scenario list. -/
structure MState where
  statuses : List Status
  index : Nat
  view : View
  deriving DecidableEq, Repr

/-- A word counts as unfinished when its status is `null` or `"skipped"`:
the predicate of `main.tsx` line 88,
`statuses[w] === null || statuses[w] === "skipped"`. -/
def isUnfinished : Status → Bool
  | none => true
  | some Mark.skipped => true
  | some Mark.correct => false
  | some Mark.incorrect => false

/-- The record update `{ ...prev, [word]: mark }` seen positionally: every
position whose word equals `word` gets the new status (for a duplicate-free
word list that is exactly the one position). -/
def setWordStatus (ws : List String) (statuses : List Status) (word : String)
    (mark : Status) : List Status :=
  (ws.zip statuses).map (fun p => if p.1 = word then mark else p.2)

/-- `nextIndex` of `main.tsx` lines 86-90: if the current position is before
the last index it returns `from + 1` unconditionally; only at the last index
does it look for a remaining unfinished word, via
`WORDS.findIndex((w) => statuses[w] === null || statuses[w] === "skipped")`,
falling back to `from` when `findIndex` yields `-1`. -/
def nextIndex (ws : List String) (statuses : List Status) (start : Nat) : Nat :=
  if start < ws.length - 1 then start + 1
  else
    match (ws.zip statuses).findIdx? (fun p => isUnfinished p.2) with
    | some remaining => remaining
    | none => start

/-- `prev` of `main.tsx` line 91: `setIndex((i) => (i > 0 ? i - 1 : 0))`. -/
def prev (s : MState) : MState :=
  { s with index := if s.index > 0 then s.index - 1 else 0 }

/-- `next` of `main.tsx` lines 92-95: compute `nextIndex`; if it equals the
current index switch the view to the summary, otherwise move the index. -/
def next (ws : List String) (s : MState) : MState :=
  let ni := nextIndex ws s.statuses s.index
  if ni = s.index then { s with view := View.summary } else { s with index := ni }

/-- `handleMark` of `main.tsx` lines 96-101: record `mark` for the word at
the current index, then advance exactly as `next` does.  `nextIndex` reads
the render-time `statuses` closure, i.e. the statuses *before* the mark. -/
def handleMark (ws : List String) (mark : Mark) (s : MState) : MState :=
  let word := ws.getD s.index ""
  let statuses' := setWordStatus ws s.statuses word (some mark)
  let ni := nextIndex ws s.statuses s.index
  if ni = s.index then { statuses := statuses', index := s.index, view := View.summary }
  else { statuses := statuses', index := ni, view := s.view }

/-- `resetAll` of `main.tsx` lines 102-106: every status back to `null`,
index `0`, view `"trainer"`. -/
def resetAll (ws : List String) (_s : MState) : MState :=
  { statuses := ws.map (fun _ => none), index := 0, view := View.trainer }

/-- `jumpToWord` of `main.tsx` lines 107-110: `WORDS.indexOf(w)`; when the
word is present set the index to its first position and the view to the
trainer, otherwise do nothing. -/
def jumpToWord (ws : List String) (w : String) (s : MState) : MState :=
  match ws.findIdx? (fun x => x = w) with
  | some i => { s with index := i, view := View.trainer }
  | none => s

/-- The three summary columns returned by `groups` in `main.tsx`. -/
structure Groups where
  correct : List String
  incorrect : List String
  notAnswered : List String
  deriving DecidableEq, Repr

/-- `groups` of `main.tsx` lines 54-63: one pass over the word list pushing
each word into `correct`, `incorrect`, or `notAnswered` (which therefore
collects both `null` and `"skipped"`). -/
def groups (ws : List String) (statuses : List Status) : Groups :=
  { correct :=
      ((ws.zip statuses).filter (fun p => p.2 = some Mark.correct)).map Prod.fst
    incorrect :=
      ((ws.zip statuses).filter
        (fun p => ¬ p.2 = some Mark.correct ∧ p.2 = some Mark.incorrect)).map Prod.fst
    notAnswered :=
      ((ws.zip statuses).filter
        (fun p => ¬ p.2 = some Mark.correct ∧ ¬ p.2 = some Mark.incorrect)).map Prod.fst }

/-- `allDone` of `main.tsx` line 67: `groups.notAnswered.length === 0`; this
is also the spec's `isComplete()`. -/
def allDone (ws : List String) (statuses : List Status) : Bool :=
  (groups ws statuses).notAnswered.length = 0

/-! ## Persistence adapter of `main.tsx` (`loadStore` / `saveStore`)

The browser store holds at most one raw value under the fixed key.  A raw
value is either absent (`getItem` returned `null`, or the falsy empty
string), a string `JSON.parse` throws on, or a successfully parsed value.
Of a parsed value `loadStore` inspects only `parsed.statuses?.[w]` for the
25 words and `Number(parsed.index)`, which the `Parsed` record captures:
the optional `statuses` sub-object is an association list of string keys,
and `index` is the number `Number(parsed.index)` evaluates to (`none`
standing for `NaN`).  `JSON.stringify` followed by `JSON.parse` is the
identity on such records, which is how `saveStore` produces a `Raw`. -/

/-- A JSON value found under a word key in the stored `statuses` object:
either one of the three recognised status strings, or anything else
(`null`, numbers, unknown strings, ...), which `loadStore` coerces to
`null`. -/
inductive RStatus
  | rcorrect
  | rincorrect
  | rskipped
  | rother
  deriving DecidableEq, Repr

/-- What `loadStore` can observe of a successfully parsed stored value. -/
structure Parsed where
  statuses : Option (List (String × RStatus))
  index : Option Int
  deriving DecidableEq, Repr

/-- A raw stored value as `loadStore` classifies it. -/
inductive Raw
  | absent
  | malformed
  | parsed (p : Parsed)
  deriving DecidableEq, Repr

/-- The `StoreShape` of `main.tsx`:
`{ statuses: Record<string, Status>; index: number }`, with the statuses
record represented positionally over `WORDS` as in `MState`. -/
structure StoreShape where
  statuses : List Status
  index : Int
  deriving DecidableEq, Repr

/-- The coercion on `main.tsx` line 34: a looked-up value is kept only when
it is one of the three status strings, otherwise it becomes `null`; a
missing key (`undefined ?? null`) also becomes `null`. -/
def coerceStatus : Option RStatus → Status
  | some RStatus.rcorrect => some Mark.correct
  | some RStatus.rincorrect => some Mark.incorrect
  | some RStatus.rskipped => some Mark.skipped
  | some RStatus.rother => none
  | none => none

/-- The lookup `parsed.statuses?.[w] ?? null` of `main.tsx` line 33. -/
def lookupParsed (p : Parsed) (w : String) : Option RStatus :=
  match p.statuses with
  | some l => l.lookup w
  | none => none

/-- `Number(parsed.index) || 0` of `main.tsx` line 36: `NaN` collapses to
`0` (and `0 || 0` is `0` either way). -/
def numOr0 : Option Int → Int
  | some n => n
  | none => 0

/-- The normalisation `loadStore` applies to a parsed value
(`main.tsx` lines 31-37): rebuild the statuses record over exactly the 25
words, coercing each looked-up value, and clamp the index into
`[0, WORDS.length - 1]`. -/
def loadParsed (p : Parsed) : StoreShape :=
  { statuses := WORDS.map (fun w => coerceStatus (lookupParsed p w))
    index := min (max (numOr0 p.index) 0) ((WORDS.length : Int) - 1) }

/-- `loadStore` of `main.tsx` lines 26-39: `null` for an absent or
unparseable raw value, otherwise the normalised parsed value. -/
def loadStore : Raw → Option StoreShape
  | Raw.absent => none
  | Raw.malformed => none
  | Raw.parsed p => some (loadParsed p)

/-- Status back to its JSON form as `JSON.stringify` writes it: the three
strings, or JSON `null` for `none` (an unrecognised value, hence
`RStatus.rother`). -/
def toRStatus : Status → RStatus
  | some Mark.correct => RStatus.rcorrect
  | some Mark.incorrect => RStatus.rincorrect
  | some Mark.skipped => RStatus.rskipped
  | none => RStatus.rother

/-- `saveStore` of `main.tsx` lines 41-43: store
`JSON.stringify({ statuses, index })`, which parses back to a record with
one entry per word of `WORDS` (in order) and the numeric index. -/
def saveStore (d : StoreShape) : Raw :=
  Raw.parsed
    { statuses := some ((WORDS.zip d.statuses).map (fun p => (p.1, toRStatus p.2)))
      index := some d.index }

/-! ## The `App.tsx` variant -/

/-- The status type of `App.tsx`:
`"unanswered" | "correct" | "incorrect" | "skipped"` (no `null`; absence
of a record entry plays that role instead). -/
inductive AStatus
  | unanswered
  | correct
  | incorrect
  | skipped
  deriving DecidableEq, Repr

/-- Component state of the `App.tsx` variant: `statuses` is the sparse
`Record<number, Status>` (a total function to `Option`, `none` for a key
the record does not hold), plus the current `index`.  The word-list
length is passed to the operations. -/
structure AState where
  statuses : Nat → Option AStatus
  index : Nat

/-- The loop predicate `statuses[i] !== "correct"` of `App.tsx`
(an absent entry, i.e. `undefined`, also differs from `"correct"`). -/
def notCorrect (s : Option AStatus) : Bool :=
  ¬ s = some AStatus.correct

/-- `goToNextUnfinished` of `App.tsx` lines 40-53: scan `start+1 .. len-1`
for the first index whose status differs from `"correct"`; failing that
scan `0 .. start`; failing that leave the index `cur` unchanged. -/
def goToNextUnfinished (len : Nat) (statuses : Nat → Option AStatus)
    (start cur : Nat) : Nat :=
  match (List.range' (start + 1) (len - (start + 1))).find?
      (fun i => notCorrect (statuses i)) with
  | some i => i
  | none =>
    match (List.range' 0 (start + 1)).find? (fun i => notCorrect (statuses i)) with
    | some i => i
    | none => cur

/-- `updateStatus` of `App.tsx` lines 33-38: record the status for the
current index; only a `"correct"` mark advances, and the advance reads the
render-time `statuses` closure (before the mark). -/
def updateStatus (len : Nat) (st : AStatus) (s : AState) : AState :=
  { statuses := fun j => if j = s.index then some st else s.statuses j
    index :=
      if st = AStatus.correct then goToNextUnfinished len s.statuses s.index s.index
      else s.index }

/-- `goPrev` of `App.tsx` line 55:
`setIndex((i) => (i > 0 ? i - 1 : words.length - 1))` — wraps to the last
word at position 0. -/
def goPrev (len : Nat) (s : AState) : AState :=
  { s with index := if s.index > 0 then s.index - 1 else len - 1 }

/-- `goNext` of `App.tsx` line 56: `goToNextUnfinished(index)`. -/
def goNext (len : Nat) (s : AState) : AState :=
  { s with index := goToNextUnfinished len s.statuses s.index s.index }

/-- `parseWords` of `App.tsx` lines 5-11: split into lines, trim each,
drop the blank ones, keep at most 100.  The source splits on `/\r?\n/`;
splitting on `"\n"` can only leave a trailing `"\r"` on a line, which
`trim` removes, so the two readings agree. -/
def parseWords (txt : String) : List String :=
  ((((txt.splitOn "\n").map String.trim).filter (fun l => l.length > 0)).take 100)

/-- `loadTxt` of `App.tsx` lines 13-20, with the fetch result made
explicit: throw when the response is not ok, parse, throw when no words
remain, otherwise return the words. -/
def loadTxt (ok : Bool) (txt : String) : Except String (List String) :=
  if ¬ ok then Except.error "Failed to load gwords.txt"
  else
    let words := parseWords txt
    if words.length = 0 then Except.error "gwords.txt has no words"
    else Except.ok words

/-- Whether an `Except` result is an error. -/
def isError : Except String (List String) → Bool
  | Except.error _ => true
  | Except.ok _ => false

/-! ## Spec-side definitions

These follow the specification's words, to be compared with the source
embeddings above. -/

/-- Modelled from the spec's search policy: «starting from the current
position, scan forward through the word list (wrapping around to the
start if needed) for the first word» satisfying `unfinished», «always
prefer the nearest word strictly after the current index before wrapping
to earlier words».  The scan order is the full cycle
`start+1, ..., len-1, 0, ..., start`; `none` means no such word exists. -/
def specScan (len : Nat) (unfinished : Nat → Bool) (start : Nat) : Option Nat :=
  (List.range' (start + 1) (len - (start + 1)) ++ List.range' 0 (start + 1)).find?
    unfinished

/-- Modelled from the spec: the nearest unset-or-skipped position strictly
after `start`, wrapping to the start if needed. -/
def specNearestUnfinished (statuses : List Status) (start : Nat) : Option Nat :=
  specScan statuses.length (fun i => isUnfinished (statuses.getD i none)) start

/-- Modelled from the spec's round-trip property: `normalize` keeps the
statuses and clamps the index into `[0, wordCount-1]`. -/
def normalizeStore (d : StoreShape) : StoreShape :=
  { statuses := d.statuses
    index := min (max d.index 0) ((WORDS.length : Int) - 1) }

/-! ## Concrete states used by the scenario and the counterexamples -/

/-- The spec's three-word scenario list. -/
def ws3 : List String := [ "cat", "dog", "bird" ]

/-- Default (freshly reset) state for the three-word list. -/
def s0 : MState := { statuses := [ none, none, none ], index := 0, view := View.trainer }

/-- State where the word right after the current one is already correct
while a later word is still unset. -/
def sc : MState :=
  { statuses := [ none, some Mark.correct, none ], index := 0, view := View.trainer }

/-- Completed session (every word correct), current index 0. -/
def sAll : MState :=
  { statuses := [ some Mark.correct, some Mark.correct, some Mark.correct ]
    index := 0, view := View.trainer }

/-- Completed session (every word correct), current index at the last word. -/
def sAllLast : MState :=
  { statuses := [ some Mark.correct, some Mark.correct, some Mark.correct ]
    index := 2, view := View.trainer }

/-- `App.tsx`-variant statuses record holding only `1 ↦ "correct"`. -/
def aCorr1 : Nat → Option AStatus :=
  fun j => if j = 1 then some AStatus.correct else none

/-- Empty `App.tsx`-variant statuses record. -/
def aNone : Nat → Option AStatus := fun _ => none

/-- A valid stored state over the real word list, used as a witness. -/
def dW : StoreShape := { statuses := WORDS.map (fun _ => none), index := 3 }

end Gwords

namespace Gwords

/-! ## Theorems -/

/-- C4: `reset()` (the `resetAll` of `main.tsx`) is idempotent — applying
it twice equals applying it once — and the reset state has every word's
status unset (`null`) and `currentIndex = 0`. -/
theorem resetAll_idempotent (ws : List String) (s : MState) :
    resetAll ws (resetAll ws s) = resetAll ws s
    ∧ (resetAll ws s).statuses = ws.map (fun _ => none)
    ∧ ((resetAll ws s).statuses.all (fun st => st = none)) = true
    ∧ (resetAll ws s).index = 0 := by
  refine ⟨rfl, rfl, ?_, rfl⟩
  simp [resetAll, List.all_eq_true]

/-- C8: on the word list `["cat","dog","bird"]` from the default state,
marking "cat" correct moves the index to 1 ("dog"); marking "dog" skipped
moves it to 2 ("bird"); after marking "bird" correct, "dog" is still
skipped, `allDone` (the spec's `isComplete()`) is false, and
`groups().notAnswered = ["dog"]`. -/
theorem scenario_cat_dog_bird :
    (handleMark ws3 Mark.correct s0).index = 1
    ∧ (handleMark ws3 Mark.skipped (handleMark ws3 Mark.correct s0)).index = 2
    ∧ (handleMark ws3 Mark.correct
        (handleMark ws3 Mark.skipped (handleMark ws3 Mark.correct s0))).statuses.getD 1 none
        = some Mark.skipped
    ∧ allDone ws3 (handleMark ws3 Mark.correct
        (handleMark ws3 Mark.skipped (handleMark ws3 Mark.correct s0))).statuses = false
    ∧ (groups ws3 (handleMark ws3 Mark.correct
        (handleMark ws3 Mark.skipped (handleMark ws3 Mark.correct s0))).statuses).notAnswered
        = [ "dog" ] := by
  decide

/-- C10: the navigation operations — `prev`, `next` and `jumpToWord` of
`main.tsx`, `goPrev` and `goNext` of `App.tsx` — never modify the statuses
mapping: every word's status is the same before and after. -/
theorem navigation_preserves_statuses (ws : List String) (w : String) (s : MState)
    (len : Nat) (a : AState) :
    (prev s).statuses = s.statuses
    ∧ (next ws s).statuses = s.statuses
    ∧ (jumpToWord ws w s).statuses = s.statuses
    ∧ (goPrev len a).statuses = a.statuses
    ∧ (goNext len a).statuses = a.statuses := by
  refine ⟨rfl, ?_, ?_, rfl, rfl⟩
  · unfold next
    dsimp only
    split <;> rfl
  · unfold jumpToWord
    split <;> rfl

/-- C7: the two embedded `previous` implementations agree away from
position 0 (both step back by one) but diverge at position 0 — `main.tsx`'s
`prev` clamps to 0 while `App.tsx`'s `goPrev` wraps to the last index — so
on the real word list the two are not equal at position 0. -/
theorem prev_policies_diverge (s : MState) (a : AState) (len i : Nat) (h : 0 < i) :
    (prev { s with index := i }).index = i - 1
    ∧ (goPrev len { a with index := i }).index = i - 1
    ∧ (prev { s with index := 0 }).index = 0
    ∧ (goPrev len { a with index := 0 }).index = len - 1
    ∧ (prev { s with index := 0 }).index ≠ (goPrev WORDS.length { a with index := 0 }).index := by
  refine ⟨?_, ?_, ?_, ?_, ?_⟩
  · simp [prev, h]
  · simp [goPrev, h]
  · simp [prev]
  · simp [goPrev]
  · simp [prev, goPrev]
    decide

/-- Witness for C7 at a concrete state and index. -/
theorem prev_policies_diverge_witness :
    (prev { s0 with index := 1 }).index = 0
    ∧ (goPrev 3 { statuses := aNone, index := 0 }).index = 2 := by
  refine ⟨?_, ?_⟩
  · have h := prev_policies_diverge s0 { statuses := aNone, index := 0 } 3 1 (by decide)
    exact h.1
  · have h := prev_policies_diverge s0 { statuses := aNone, index := 0 } 3 1 (by decide)
    exact h.2.2.2.1

/-- C1 counterexample: on `["cat","dog","bird"]` with "dog" already
correct, marking "cat" correct leaves currentIndex at 1 ("dog", already
correct) although the nearest unset-or-skipped word strictly after
position 0 is position 2 ("bird"), refuting the claimed advance policy. -/
theorem handleMark_not_nearest_unfinished_cex :
    (handleMark ws3 Mark.correct sc).statuses
      = [ some Mark.correct, some Mark.correct, none ]
    ∧ specNearestUnfinished (handleMark ws3 Mark.correct sc).statuses 0 = some 2
    ∧ (handleMark ws3 Mark.correct sc).index = 1
    ∧ ¬ (handleMark ws3 Mark.correct sc).index = 2 := by
  decide

/-- C2 counterexample: from the same state, `next` moves the index to 1
although the spec's cyclic scan — under the unset-or-skipped predicate and
under the stricter not-correct predicate alike — selects position 2. -/
theorem next_not_cyclic_scan_cex :
    (next ws3 sc).index = 1
    ∧ specNearestUnfinished sc.statuses 0 = some 2
    ∧ specScan 3 (fun i => notCorrect (aCorr1 i)) 0 = some 2
    ∧ ¬ (next ws3 sc).index = 2 := by
  decide

/-- C3 counterexample: with every word marked correct the session is
complete (`allDone` is true), yet `next` still moves the index from 0 to 1
and leaves the view on the trainer, and `handleMark` does the same. -/
theorem next_moves_when_complete_cex :
    allDone ws3 sAll.statuses = true
    ∧ (next ws3 sAll).index = 1
    ∧ (next ws3 sAll).view = View.trainer
    ∧ (handleMark ws3 Mark.correct sAll).index = 1
    ∧ (handleMark ws3 Mark.correct sAll).view = View.trainer := by
  decide

/-- The `notAnswered` filter of `groups` tests exactly `isUnfinished`. -/
theorem notAnswered_pred (st : Status) :
    (decide (¬ st = some Mark.correct ∧ ¬ st = some Mark.incorrect)) = isUnfinished st := by
  rcases st with _ | m
  · rfl
  · cases m <;> rfl

/-- `allDone` holds exactly when no entry of the status list is unfinished,
equivalently when the unfinished-entry search of `nextIndex` fails. -/
theorem allDone_iff_findIdx_none (ws : List String) (sts : List Status) :
    allDone ws sts = true
      ↔ (ws.zip sts).findIdx? (fun p => isUnfinished p.2) = none := by
  rw [List.findIdx?_eq_none_iff]
  unfold allDone groups
  simp only [decide_eq_true_eq, List.length_eq_zero, List.map_eq_nil_iff,
    List.filter_eq_nil_iff]
  constructor
  · intro h x hx
    have h2 := h x hx
    rcases x with ⟨w, st⟩
    rcases st with _ | mm
    · exact absurd ⟨by simp, by simp⟩ h2
    · cases mm
      · rfl
      · rfl
      · exact absurd ⟨by simp, by simp⟩ h2
  · intro h x hx
    have h2 := h x hx
    rcases x with ⟨w, st⟩
    rcases st with _ | mm
    · simp [isUnfinished] at h2
    · cases mm
      · simp
      · simp
      · simp [isUnfinished] at h2

/-- `allDone` holds exactly when `groups().notAnswered` is empty. -/
theorem allDone_iff_notAnswered_nil (ws : List String) (sts : List Status) :
    allDone ws sts = true ↔ (groups ws sts).notAnswered = [] := by
  unfold allDone
  simp [List.length_eq_zero]

/-- Updating the current word's entry in the statuses record stores the new
status at the current position. -/
theorem setWordStatus_getD (ws : List String) (sts : List Status) (i : Nat) (m : Status)
    (hlen : sts.length = ws.length) (hi : i < ws.length) :
    (setWordStatus ws sts (ws.getD i "") m).getD i none = m := by
  have hz : (ws.zip sts).length = ws.length := by
    simp [List.length_zip, hlen]
  have hm : i <
      ((ws.zip sts).map (fun p => if p.1 = ws.getD i "" then m else p.2)).length := by
    simp only [List.length_map, hz]
    exact hi
  unfold setWordStatus
  rw [List.getD_eq_getElem _ _ hm]
  rw [List.getElem_map]
  rw [List.getElem_zip]
  have hcond : (ws[i], sts[i]).1 = ws.getD i "" :=
    (List.getD_eq_getElem ws "" hi).symm
  rw [if_pos hcond]

/-- The statuses component of `handleMark` is the record update, in either
branch. -/
theorem handleMark_statuses (ws : List String) (m : Mark) (s : MState) :
    (handleMark ws m s).statuses
      = setWordStatus ws s.statuses (ws.getD s.index "") (some m) := by
  unfold handleMark
  dsimp only
  split <;> rfl

/-- Before the last position, `nextIndex` ignores every status and returns
the successor position. -/
theorem nextIndex_before_last (ws : List String) (sts : List Status) (i : Nat)
    (h : i + 1 < ws.length) : nextIndex ws sts i = i + 1 := by
  unfold nextIndex
  rw [if_pos (by omega)]

/-- At the last position, `nextIndex` falls back to the unfinished-entry
search over the whole list. -/
theorem nextIndex_at_last (ws : List String) (sts : List Status) (i : Nat)
    (h : i + 1 = ws.length) :
    nextIndex ws sts i
      = match (ws.zip sts).findIdx? (fun p => isUnfinished p.2) with
        | some remaining => remaining
        | none => i := by
  unfold nextIndex
  rw [if_neg (by omega)]

/-- C1 (amended): after `mark(w, m)` the status recorded for the current
word is `m`; but the index does not seek the nearest unset-or-skipped word:
before the last position it moves to `currentIndex + 1` regardless of any
status, and only at the last position does it jump to the first
unset-or-skipped position of the pre-mark statuses (switching to the
summary when that search fails or returns the current position). -/
theorem handleMark_records_and_advances (ws : List String) (m : Mark) (s : MState)
    (hlen : s.statuses.length = ws.length) (hi : s.index < ws.length) :
    (handleMark ws m s).statuses.getD s.index none = some m
    ∧ (s.index + 1 < ws.length →
        (handleMark ws m s).index = s.index + 1 ∧ (handleMark ws m s).view = s.view)
    ∧ (s.index + 1 = ws.length →
        ((ws.zip s.statuses).findIdx? (fun p => isUnfinished p.2) = none →
          (handleMark ws m s).index = s.index
          ∧ (handleMark ws m s).view = View.summary)
        ∧ (∀ j, (ws.zip s.statuses).findIdx? (fun p => isUnfinished p.2) = some j →
            (j = s.index →
              (handleMark ws m s).index = s.index
              ∧ (handleMark ws m s).view = View.summary)
            ∧ (¬ j = s.index →
              (handleMark ws m s).index = j
              ∧ (handleMark ws m s).view = s.view))) := by
  refine ⟨?_, ?_, ?_⟩
  · rw [handleMark_statuses]
    exact setWordStatus_getD ws s.statuses s.index (some m) hlen hi
  · intro hlt
    have hni := nextIndex_before_last ws s.statuses s.index hlt
    unfold handleMark
    dsimp only
    rw [hni, if_neg (by omega)]
    exact ⟨rfl, rfl⟩
  · intro hlast
    have hni := nextIndex_at_last ws s.statuses s.index hlast
    refine ⟨?_, ?_⟩
    · intro hnone
      rw [hnone] at hni
      unfold handleMark
      dsimp only
      rw [hni, if_pos rfl]
      exact ⟨rfl, rfl⟩
    · intro j hj
      rw [hj] at hni
      refine ⟨?_, ?_⟩
      · intro hje
        unfold handleMark
        dsimp only
        rw [hni, hje, if_pos rfl]
        exact ⟨rfl, rfl⟩
      · intro hjne
        unfold handleMark
        dsimp only
        rw [hni, if_neg hjne]
        exact ⟨rfl, rfl⟩

/-- Witness for C1 (amended) on the scenario list from the default state. -/
theorem handleMark_records_and_advances_witness :
    (handleMark ws3 Mark.correct s0).statuses.getD 0 none = some Mark.correct
    ∧ (handleMark ws3 Mark.correct s0).index = 1 := by
  have h := handleMark_records_and_advances ws3 Mark.correct s0 (by decide) (by decide)
  exact ⟨h.1, (h.2.1 (by decide)).1⟩

/-- C2 (amended): `App.tsx`'s `goToNextUnfinished` does implement the
spec's cyclic scan under the stricter not-correct predicate — it returns
the first index of the cycle `start+1, ..., len-1, 0, ..., start` whose
status differs from correct, keeping the current index when none exists —
but `main.tsx`'s `nextIndex`, as invoked by `next`, performs no such scan:
before the last position it returns `current + 1` unconditionally. -/
theorem goToNextUnfinished_cyclic_scan (len : Nat) (sts : Nat → Option AStatus)
    (start cur : Nat) (ws : List String) (msts : List Status) (i : Nat)
    (h : i + 1 < ws.length) :
    goToNextUnfinished len sts start cur
      = (specScan len (fun j => notCorrect (sts j)) start).getD cur
    ∧ nextIndex ws msts i = i + 1 := by
  constructor
  · unfold goToNextUnfinished specScan
    rw [List.find?_append]
    cases h1 : (List.range' (start + 1) (len - (start + 1))).find?
        (fun j => notCorrect (sts j)) with
    | some a => simp [h1, Option.or]
    | none =>
      cases h2 : (List.range' 0 (start + 1)).find? (fun j => notCorrect (sts j)) with
      | some a => simp [h1, h2, Option.or]
      | none => simp [h1, h2, Option.or]
  · exact nextIndex_before_last ws msts i h

/-- Witness for C2 (amended) at a concrete statuses record and list. -/
theorem goToNextUnfinished_cyclic_scan_witness :
    goToNextUnfinished 3 aCorr1 0 0 = 2 ∧ nextIndex ws3 s0.statuses 0 = 1 := by
  have h := goToNextUnfinished_cyclic_scan 3 aCorr1 0 0 ws3 s0.statuses 0 (by decide)
  exact ⟨h.1.trans (by decide), h.2⟩

/-- C3 (amended): when the session is complete (`allDone`, the spec's
`isComplete()`, holds — equivalently `groups().notAnswered` is empty) and
the current index is the last position, `next` and `handleMark` leave the
index unchanged and switch to the summary view; at any earlier position,
however, both still move the index forward by one and keep the view. -/
theorem complete_at_last_index_goes_summary (ws : List String) (s : MState)
    (hdone : allDone ws s.statuses = true) :
    (groups ws s.statuses).notAnswered = []
    ∧ (s.index + 1 = ws.length →
        (next ws s).index = s.index ∧ (next ws s).view = View.summary
        ∧ ∀ m : Mark, (handleMark ws m s).index = s.index
            ∧ (handleMark ws m s).view = View.summary)
    ∧ (s.index + 1 < ws.length →
        (next ws s).index = s.index + 1 ∧ (next ws s).view = s.view) := by
  have hfind := (allDone_iff_findIdx_none ws s.statuses).mp hdone
  refine ⟨(allDone_iff_notAnswered_nil ws s.statuses).mp hdone, ?_, ?_⟩
  · intro hlast
    have hni := nextIndex_at_last ws s.statuses s.index hlast
    rw [hfind] at hni
    have hnext : next ws s = { s with view := View.summary } := by
      unfold next
      dsimp only
      rw [hni, if_pos rfl]
    refine ⟨by rw [hnext], by rw [hnext], ?_⟩
    intro m
    have hmark : handleMark ws m s
        = { statuses := setWordStatus ws s.statuses (ws.getD s.index "") (some m)
            index := s.index, view := View.summary } := by
      unfold handleMark
      dsimp only
      rw [hni, if_pos rfl]
    exact ⟨by rw [hmark], by rw [hmark]⟩
  · intro hlt
    have hni := nextIndex_before_last ws s.statuses s.index hlt
    have hnext : next ws s = { s with index := s.index + 1 } := by
      unfold next
      dsimp only
      rw [hni, if_neg (by omega)]
    exact ⟨by rw [hnext], by rw [hnext]⟩

/-- Witness for C3 (amended): a complete session at the last index. -/
theorem complete_at_last_index_goes_summary_witness :
    (next ws3 sAllLast).index = 2 ∧ (next ws3 sAllLast).view = View.summary := by
  have h := complete_at_last_index_goes_summary ws3 sAllLast (by decide)
  have h2 := h.2.1 (by decide)
  exact ⟨h2.1, h2.2.1⟩

/-- C9: `parseWords` keeps at most 100 entries, every kept entry is a
nonempty trimmed line, and the result is an order-preserving sublist of
the trimmed lines; `loadTxt` surfaces an error exactly when the fetch
failed or no words were parsed. -/
theorem parseWords_loadTxt_spec (txt : String) (ok : Bool) :
    (parseWords txt).length ≤ 100
    ∧ (parseWords txt).Sublist ((txt.splitOn "\n").map String.trim)
    ∧ (parseWords txt).all (fun w => w.length > 0) = true
    ∧ isError (loadTxt ok txt) = (!ok || decide ((parseWords txt).length = 0)) := by
  refine ⟨?_, ?_, ?_, ?_⟩
  · unfold parseWords
    exact List.length_take_le 100 _
  · unfold parseWords
    exact (List.take_sublist _ _).trans (List.filter_sublist _)
  · rw [List.all_eq_true]
    intro w hw
    unfold parseWords at hw
    have hw2 := (List.take_sublist 100 _).subset hw
    exact (List.mem_filter.mp hw2).2
  · unfold loadTxt
    cases ok with
    | false => simp [isError]
    | true =>
      by_cases h : (parseWords txt).length = 0
      · simp [h, isError]
      · simp [h, isError]

/-- Composing the status coercion of `loadStore` with the JSON form
written by `saveStore` is the identity. -/
theorem coerceStatus_toRStatus (s : Status) :
    coerceStatus (some (toRStatus s)) = s := by
  rcases s with _ | m
  · rfl
  · cases m <;> rfl

/-- Looking every word of a duplicate-free list up in the association list
that `saveStore` writes recovers exactly the saved statuses. -/
theorem lookup_saved_statuses : ∀ (ws : List String) (sts : List Status),
    ws.Nodup → sts.length = ws.length →
    ws.map (fun w =>
        coerceStatus (((ws.zip sts).map (fun p => (p.1, toRStatus p.2))).lookup w))
      = sts := by
  intro ws
  induction ws with
  | nil =>
    intro sts _ hlen
    cases sts with
    | nil => rfl
    | cons a l2 => simp at hlen
  | cons w ws ih =>
    intro sts hnd hlen
    cases sts with
    | nil => simp at hlen
    | cons s sts =>
      have hw : w ∉ ws := (List.nodup_cons.mp hnd).1
      have hnd2 : ws.Nodup := (List.nodup_cons.mp hnd).2
      have hlen2 : sts.length = ws.length := by simpa using hlen
      simp only [List.zip_cons_cons, List.map_cons]
      congr 1
      · simp only [List.lookup, beq_self_eq_true]
        exact coerceStatus_toRStatus s
      · have hcong : ws.map (fun x =>
            coerceStatus (List.lookup x
              ((w, toRStatus s) :: (ws.zip sts).map (fun p => (p.1, toRStatus p.2)))))
            = ws.map (fun x =>
            coerceStatus (List.lookup x
              ((ws.zip sts).map (fun p => (p.1, toRStatus p.2))))) := by
          apply List.map_congr_left
          intro x hx
          have hxw : ¬ x = w := fun e => hw (e ▸ hx)
          have hb : (x == w) = false := by simp [hxw]
          simp only [List.lookup, hb]
        rw [hcong]
        exact ih sts hnd2 hlen2

/-- C5: the persistence round-trip — loading what `saveStore` wrote yields
exactly the normalised state (statuses unchanged, index clamped into
`[0, wordCount-1]`); an absent or unparseable stored value loads as
`null`. -/
theorem loadStore_saveStore_roundtrip (d : StoreShape)
    (hlen : d.statuses.length = WORDS.length) :
    loadStore (saveStore d) = some (normalizeStore d)
    ∧ loadStore Raw.absent = none
    ∧ loadStore Raw.malformed = none := by
  refine ⟨?_, rfl, rfl⟩
  have hnd : WORDS.Nodup := by decide
  have hst := lookup_saved_statuses WORDS d.statuses hnd hlen
  unfold loadStore saveStore loadParsed normalizeStore
  simp only [lookupParsed, numOr0]
  rw [hst]

/-- Witness for C5 at a concrete valid state. -/
theorem loadStore_saveStore_roundtrip_witness :
    loadStore (saveStore dW) = some (normalizeStore dW) :=
  (loadStore_saveStore_roundtrip dW (by simp [dW])).1

/-- An association-list entry under a key that is not the looked-up word
does not change the lookup. -/
theorem lookup_append_unknown (l : List (String × RStatus)) (w k : String)
    (v : RStatus) (h : ¬ w = k) :
    (l ++ [ (k, v) ]).lookup w = l.lookup w := by
  induction l with
  | nil =>
    have hb : (w == k) = false := by simp [h]
    simp only [List.nil_append, List.lookup, hb]
  | cons q l ih =>
    cases q with
    | mk a b =>
      cases hab : (w == a) with
      | true => simp only [List.cons_append, List.lookup, hab]
      | false =>
        simp only [List.cons_append, List.lookup, hab]
        exact ih

/-- C6: `loadStore` returns `null` for an absent or unparseable stored
value; a stored entry under a key that is not one of the words is dropped
(it cannot change the loaded state); stored status values that are not one
of the three recognised strings coerce to unset; and the loaded index is
always clamped into `[0, wordCount-1]`. -/
theorem loadStore_normalizes (p : Parsed) (l : List (String × RStatus))
    (idx : Option Int) (k : String) (v : RStatus)
    (hk : ¬ k ∈ WORDS)
    (hl : ∀ w ∈ WORDS, l.lookup w = none ∨ l.lookup w = some RStatus.rother) :
    loadStore Raw.absent = none
    ∧ loadStore Raw.malformed = none
    ∧ loadParsed { statuses := some (l ++ [ (k, v) ]), index := idx }
        = loadParsed { statuses := some l, index := idx }
    ∧ (loadParsed { statuses := some l, index := idx }).statuses
        = WORDS.map (fun _ => none)
    ∧ 0 ≤ (loadParsed p).index
    ∧ (loadParsed p).index ≤ (WORDS.length : Int) - 1 := by
  refine ⟨rfl, rfl, ?_, ?_, ?_, ?_⟩
  · unfold loadParsed
    simp only [lookupParsed]
    congr 1
    apply List.map_congr_left
    intro w hw
    have hwk : ¬ w = k := fun e => hk (e ▸ hw)
    rw [lookup_append_unknown l w k v hwk]
  · unfold loadParsed
    simp only [lookupParsed]
    apply List.map_congr_left
    intro w hw
    rcases hl w hw with h | h
    · rw [h]
      rfl
    · rw [h]
      rfl
  · unfold loadParsed
    exact le_min (le_max_right _ _) (by decide)
  · unfold loadParsed
    exact min_le_right _ _

/-- Witness for C6 at a concrete parsed value. -/
theorem loadStore_normalizes_witness :
    (loadParsed { statuses := some ([] : List (String × RStatus)), index := none }).statuses
      = WORDS.map (fun _ => none)
    ∧ 0 ≤ (loadParsed { statuses := some ([] : List (String × RStatus)), index := some (-5) }).index := by
  have h := loadStore_normalizes
    { statuses := some ([] : List (String × RStatus)), index := some (-5) }
    ([] : List (String × RStatus)) none "zebra" RStatus.rother
    (by decide) (by intro w hw; exact Or.inl rfl)
  exact ⟨h.2.2.2.1, h.2.2.2.2.1⟩

end Gwords
